import Mathlib

/-!
Verification development for the single-pass temperature aggregation program
(`src/using_python.py`).  The program reads `;`-delimited lines, keeps four
per-station tables (`minimas`, `maximas`, `somas`, `medicoes`), and finally
emits `station: min/mean/max` lines sorted by station name.

Embedding conventions:
* Python `float` values are embedded as an inductive `PyF` over exact
  rationals (`finite ℚ`) together with the IEEE special values `inf`,
  `negInf` and `nan`.  Comparisons (`min`/`max`) are exact in binary64 and
  modelled directly; for addition two models are provided: `pyadd` adds
  the rationals exactly (valid whenever every intermediate sum is exactly
  representable, as in the concrete scenarios), and `pyaddD` rounds each
  sum to the nearest binary64 via `fl64`, which is the faithful model of
  the source's `+=` and decides the merge claim.
* `csv.reader(file, delimiter=';')` is embedded as `splitSemi`, splitting a
  line at every `;`.  The quoting mechanism of the csv module (`"` handling)
  is not exercised by any claim and is not modelled; on quote-free lines
  `csv.reader` agrees with splitting at every delimiter.
* A raised Python exception (IndexError from `row[1]`, ValueError from
  `float`) is embedded as `none`/an error flag; the run loop stops at the
  first failing line, like the propagating exception in the source.
-/

/-- Embedded Python float: exact rational for finite doubles plus the IEEE
special values produced by `float('inf')`, `float('-inf')`, `float('nan')`. -/
inductive PyF where
  | finite (q : ℚ)
  | inf
  | negInf
  | nan
  deriving DecidableEq

/-- Python `<` on embedded floats (IEEE comparison: `nan` compares false
with everything, `-inf < finite q < inf`). -/
def pylt : PyF → PyF → Bool
  | .finite a, .finite b => a < b
  | .finite _, .inf => true
  | .negInf, .finite _ => true
  | .negInf, .inf => true
  | _, _ => false

/-- Python `min(a, b)`: keeps `a` unless `b < a` (source line
`min(minimas[nome_da_station], temperatura)`). -/
def pymin (a b : PyF) : PyF := if pylt b a then b else a

/-- Python `max(a, b)`: keeps `a` unless `a < b` (source line
`max(maximas[nome_da_station], temperatura)`). -/
def pymax (a b : PyF) : PyF := if pylt a b then b else a

/-- Addition on embedded floats with the finite case EXACT (no binary64
rounding).  The source's `somas[nome_da_station] += temperatura` rounds
every sum to 64 bits; `pyaddD` below models that rounding via `fl64`, and
is what the merge claim (C6) is settled against.  This exact version is the
abstraction used where every intermediate sum is exactly representable
(as in the concrete scenarios of C1/C7/C8) and in the exact-arithmetic
helper `mergeExactQ`. -/
def pyadd : PyF → PyF → PyF
  | .finite a, .finite b => .finite (a + b)
  | .finite _, .inf => .inf
  | .finite _, .negInf => .negInf
  | .inf, .finite _ => .inf
  | .negInf, .finite _ => .negInf
  | .inf, .inf => .inf
  | .negInf, .negInf => .negInf
  | .inf, .negInf => .nan
  | .negInf, .inf => .nan
  | .nan, _ => .nan
  | _, .nan => .nan

/-- Python `float / int` for the mean (`somas[station] / qtd_medicoes`).
The `n = 0` case never arises (claim C9); the rational convention `q / 0 = 0`
stands in for the unreachable `ZeroDivisionError`. -/
def pydiv (a : PyF) (n : ℕ) : PyF :=
  match a with
  | .finite q => .finite (q / (n : ℚ))
  | .inf => .inf
  | .negInf => .negInf
  | .nan => .nan

/-! ### The `float(...)` conversion of CPython

`float(row[1])` accepts an optionally signed decimal literal (digits with
optional fractional part and optional exponent, underscores allowed between
digits), or the case-insensitive words `inf`/`infinity`/`nan`, surrounded by
optional whitespace.  Unicode digits and non-ASCII whitespace, which CPython
also accepts, are not exercised by any claim and are not modelled. -/

/-- ASCII whitespace stripped by `float` before parsing. -/
def isWsChar (c : Char) : Bool :=
  c == ' ' || c == '\t' || c == '\n' || c == '\x0d' || c == '\x0b' || c == '\x0c'

/-- Strip whitespace from both ends of a character list. -/
def stripWs (l : List Char) : List Char :=
  ((l.dropWhile isWsChar).reverse.dropWhile isWsChar).reverse

/-- Lower-case an ASCII letter (for the case-insensitive `inf`/`nan` words). -/
def lowerAscii (c : Char) : Char :=
  if 'A' ≤ c ∧ c ≤ 'Z' then Char.ofNat (c.toNat + 32) else c

/-- Numeric value of an ASCII digit. -/
def digitVal (c : Char) : ℕ := c.toNat - 48

/-- After an initial digit: the remaining `(D | _D)*` of a digit chunk,
underscores legal only between digits. -/
def usChunkCore : List Char → Option (List ℕ)
  | [] => some []
  | '_' :: c :: cs => if c.isDigit then (usChunkCore cs).map (digitVal c :: ·) else none
  | '_' :: [] => none
  | c :: cs => if c.isDigit then (usChunkCore cs).map (digitVal c :: ·) else none

/-- A possibly-empty digit chunk `(D (D | _D)*)?` as CPython's underscore
normalisation accepts it. -/
def usChunk : List Char → Option (List ℕ)
  | [] => some []
  | c :: cs => if c.isDigit then (usChunkCore cs).map (digitVal c :: ·) else none

/-- Value of a digit list read in base 10. -/
def natVal (ds : List ℕ) : ℕ := ds.foldl (fun a d => 10 * a + d) 0

/-- Mantissa `digits [. digits]`, at least one digit overall. -/
def parseMantissa (l : List Char) : Option ℚ :=
  let ip := l.takeWhile (fun c => !(c == '.'))
  let rest := l.dropWhile (fun c => !(c == '.'))
  match rest with
  | [] =>
    match usChunk ip with
    | none => none
    | some ds => if ds = [] then none else some ((natVal ds : ℕ) : ℚ)
  | _ :: frac =>
    match usChunk ip, usChunk frac with
    | some di, some df =>
      if di = [] ∧ df = [] then none
      else some ((natVal di : ℚ) + (natVal df : ℚ) / (10 : ℚ) ^ df.length)
    | _, _ => none

/-- Exponent part after `e`/`E`: optional sign then a nonempty digit chunk. -/
def parseExp (l : List Char) : Option ℤ :=
  let core : List Char → Option ℤ := fun r =>
    match usChunk r with
    | none => none
    | some ds => if ds = [] then none else some ((natVal ds : ℕ) : ℤ)
  match l with
  | '+' :: r => core r
  | '-' :: r => (core r).map (fun n => -n)
  | r => core r

/-- An unsigned numeric literal `mantissa [(e|E) exponent]`. -/
def parseNumBody (l : List Char) : Option ℚ :=
  let mant := l.takeWhile (fun c => !(c == 'e') && !(c == 'E'))
  let rest := l.dropWhile (fun c => !(c == 'e') && !(c == 'E'))
  match rest with
  | [] => parseMantissa mant
  | _ :: ex =>
    match parseMantissa mant, parseExp ex with
    | some m, some e => some (m * (10 : ℚ) ^ e)
    | _, _ => none

/-- The part of `float` after the optional sign: the words `inf`, `infinity`
and `nan` (case-insensitive) or a numeric literal. -/
def pyfloatUnsigned (l : List Char) (neg : Bool) : Option PyF :=
  let low := l.map lowerAscii
  if low = "inf".data ∨ low = "infinity".data then
    some (if neg then .negInf else .inf)
  else if low = "nan".data then some .nan
  else (parseNumBody l).map (fun q => .finite (if neg then -q else q))

/-- Sign handling of `float`. -/
def pyfloatChars : List Char → Option PyF
  | '+' :: r => pyfloatUnsigned r false
  | '-' :: r => pyfloatUnsigned r true
  | l => pyfloatUnsigned l false

/-- CPython `float(s)`: `some` on the accepted strings, `none` where CPython
raises `ValueError`. -/
def pyfloat (s : String) : Option PyF := pyfloatChars (stripWs s.data)

/-! ### Line splitting and the per-line parse step -/

/-- Embeds `csv.reader(..., delimiter=';')` on a quote-free line: split at every
`;`.  Always returns at least one (possibly empty) field. -/
def splitSemi : List Char → List (List Char)
  | [] => [[]]
  | c :: cs =>
    match splitSemi cs with
    | [] => [[]]
    | f :: rest => if c = ';' then [] :: f :: rest else (c :: f) :: rest

/-- The parse step of the loop body: `nome = str(row[0])`,
`temperatura = float(row[1])`.  `none` embeds the raised exception
(IndexError when the row has fewer than two fields, ValueError from
`float`); fields beyond the second are ignored, as `row[1]` is. -/
def parseLine (line : String) : Option (String × PyF) :=
  match splitSemi line.data with
  | k :: v :: _ => (pyfloat (String.mk v)).map (fun x => (String.mk k, x))
  | _ => none

/-! ### The four per-station tables

Python `defaultdict`/`Counter` lookups and stores, embedded as insertion-order
association lists: a store overwrites in place when the key is present and
appends otherwise, exactly like a Python dict. -/

/-- Lookup `d[k]` of a `defaultdict` with default `dflt` (the insertion the lookup
performs is immediately overwritten by the stores in the loop body, so it is
dropped here). -/
def dget (dflt : α) : List (String × α) → String → α
  | [], _ => dflt
  | p :: d, k => if p.1 = k then p.2 else dget dflt d k

/-- Membership test `k in d`. -/
def dcontains : List (String × α) → String → Bool
  | [], _ => false
  | p :: d, k => p.1 = k || dcontains d k

/-- Overwrite the entry for a present key, keeping its position. -/
def dsetIn : List (String × α) → String → α → List (String × α)
  | [], _, _ => []
  | p :: d, k, v => (if p.1 = k then (k, v) else p) :: dsetIn d k v

/-- Store `d[k] = v` on a Python dict: overwrite in place when present, append
otherwise (dicts preserve insertion order). -/
def dset (d : List (String × α)) (k : String) (v : α) : List (String × α) :=
  if dcontains d k then dsetIn d k v else d ++ [(k, v)]

/-- Key list of a table, in insertion order. -/
def keys (d : List (String × α)) : List String := d.map (·.1)

/-- The mutable state of `processar_temperaturas`: the four per-station
tables. -/
structure ProcState where
  minimas : List (String × PyF)
  maximas : List (String × PyF)
  somas : List (String × PyF)
  medicoes : List (String × ℕ)
  deriving DecidableEq

/-- The tables as first constructed: all empty. -/
def emptyState : ProcState := ⟨[], [], [], []⟩

/-- The loop body after a successful parse: `medicoes.update([nome])`,
`minimas[nome] = min(minimas[nome], temperatura)`,
`maximas[nome] = max(maximas[nome], temperatura)`,
`somas[nome] += temperatura`, with `defaultdict` defaults `inf`, `-inf`,
`0.0` and `Counter` default `0`. -/
def atualizar (st : ProcState) (nome : String) (t : PyF) : ProcState where
  minimas := dset st.minimas nome (pymin (dget .inf st.minimas nome) t)
  maximas := dset st.maximas nome (pymax (dget .negInf st.maximas nome) t)
  somas := dset st.somas nome (pyadd (dget (.finite 0) st.somas nome) t)
  medicoes := dset st.medicoes nome (dget 0 st.medicoes nome + 1)

/-- The reading loop: one line in, one update, stopping at the first line
whose parse raises (the Boolean records whether the run aborted). -/
def runLines (st : ProcState) : List String → ProcState × Bool
  | [] => (st, false)
  | l :: ls =>
    match parseLine l with
    | none => (st, true)
    | some (k, v) => runLines (atualizar st k v) ls

/-- Runs `processar_temperaturas` on a list of input lines, starting from the
fresh tables. -/
def processar (lines : List String) : ProcState × Bool := runLines emptyState lines

/-- The snapshot loop: `for station, qtd_medicoes in medicoes.items():`
`results[station] = (minimas[station], somas[station]/qtd_medicoes,
maximas[station])`. -/
def snapshot (st : ProcState) : List (String × (PyF × PyF × PyF)) :=
  st.medicoes.map (fun p =>
    (p.1, (dget .inf st.minimas p.1,
           pydiv (dget (.finite 0) st.somas p.1) p.2,
           dget .negInf st.maximas p.1)))

/-- One key's aggregate, read off the four tables (the AggregateState of the
specification). -/
structure Station where
  count : ℕ
  minv : PyF
  maxv : PyF
  sumv : PyF
  deriving DecidableEq

/-- The aggregate stored for key `k` (with the defaults standing in for an
absent key, as the `defaultdict`s do). -/
def stationAt (st : ProcState) (k : String) : Station where
  count := dget 0 st.medicoes k
  minv := dget .inf st.minimas k
  maxv := dget .negInf st.maximas k
  sumv := dget (.finite 0) st.somas k

/-- Merging two independently built aggregates for one key: pairwise min,
pairwise max, summed sum, summed count (modelled from the spec's
associativity property; no merge exists in the single-threaded source). -/
def mergeState (a b : Station) : Station where
  count := a.count + b.count
  minv := pymin a.minv b.minv
  maxv := pymax a.maxv b.maxv
  sumv := pyadd a.sumv b.sumv

/-- Ingest a list of already-parsed records. -/
def ingestRecs (st : ProcState) (recs : List (String × PyF)) : ProcState :=
  recs.foldl (fun s r => atualizar s r.1 r.2) st

/-- Ingest finite (rational) records from the fresh tables. -/
def ingestQ (recs : List (String × ℚ)) : ProcState :=
  ingestRecs emptyState (recs.map (fun r => (r.1, PyF.finite r.2)))

/-- The values ingested under key `k`, in order. -/
def valsForP (k : String) (recs : List (String × PyF)) : List PyF :=
  (recs.filter (fun r => r.1 = k)).map (·.2)

/-- The rational values ingested under key `k`, in order. -/
def valsForQ (k : String) (recs : List (String × ℚ)) : List ℚ :=
  (recs.filter (fun r => r.1 = k)).map (·.2)

/-! ### The reporter: sorting and `:.1f` formatting -/

/-- Round a rational to the nearest integer, ties to even (the fixed-point
rounding of `format(x, '.1f')` at one decimal is applied to `10 * x`). -/
def halfEven (q : ℚ) : ℤ :=
  let f : ℤ := Rat.floor q
  let r : ℚ := q - (f : ℚ)
  if r < 1 / 2 then f
  else if 1 / 2 < r then f + 1
  else if f % 2 = 0 then f else f + 1

/-- Formatting `f"{q:.1f}"` of a finite value: one decimal digit, correctly rounded. -/
def fmtQ1 (q : ℚ) : String :=
  let n : ℤ := halfEven (q * 10)
  let a : ℕ := n.natAbs
  (if n < 0 then "-" else "") ++ toString (a / 10) ++ "." ++ toString (a % 10)

/-- Formatting `f"{x:.1f}"` of an embedded float (`inf`, `-inf` and `nan` format as the
corresponding words in CPython). -/
def fmt1 : PyF → String
  | .finite q => fmtQ1 q
  | .inf => "inf"
  | .negInf => "-inf"
  | .nan => "nan"

/-- The comparison used by `sorted(results.items())`: Python compares the
`(station, triple)` tuples, which on distinct station names is the
code-point order of the names. -/
def keyLe (a b : String × (PyF × PyF × PyF)) : Prop := a.1 ≤ b.1

instance : DecidableRel keyLe := fun a b => inferInstanceAs (Decidable (a.1 ≤ b.1))

instance : IsTotal (String × (PyF × PyF × PyF)) keyLe := ⟨fun a b => le_total a.1 b.1⟩

instance : IsTrans (String × (PyF × PyF × PyF)) keyLe := ⟨fun _ _ _ h1 h2 => le_trans h1 h2⟩

/-- Embeds `sorted(results.items())`. -/
def sortedResults (st : ProcState) : List (String × (PyF × PyF × PyF)) :=
  List.insertionSort keyLe (snapshot st)

/-- The formatted-results comprehension:
`{station: f"{min:.1f}/{mean:.1f}/{max:.1f}" ...}`. -/
def formattedResults (st : ProcState) : List (String × String) :=
  (sortedResults st).map (fun p => (p.1, fmt1 p.2.1 ++ "/" ++ fmt1 p.2.2.1 ++ "/" ++ fmt1 p.2.2.2))

/-- The lines printed by `main`: `print(station, metrics, sep=': ')`. -/
def outputLines (st : ProcState) : List String :=
  (formattedResults st).map (fun p => p.1 ++ ": " ++ p.2)

/-! ### Byte-wise order on UTF-8 encodings (for the order claim) -/

/-- UTF-8 encoding of a Unicode scalar value, as a list of byte values. -/
def utf8enc (n : ℕ) : List ℕ :=
  if n < 0x80 then [n]
  else if n < 0x800 then [0xC0 + n / 64, 0x80 + n % 64]
  else if n < 0x10000 then
    [0xE0 + n / 4096, 0x80 + n / 64 % 64, 0x80 + n % 64]
  else
    [0xF0 + n / 0x40000, 0x80 + n / 4096 % 64, 0x80 + n / 64 % 64, 0x80 + n % 64]

/-- The UTF-8 byte sequence of a string. -/
def utf8Bytes (s : String) : List ℕ := s.data.flatMap (fun c => utf8enc c.toNat)

/-- Strict byte-wise lexicographic order on the UTF-8 encodings of two
strings. -/
def byteLt (a b : String) : Prop := List.Lex (· < ·) (utf8Bytes a) (utf8Bytes b)

/-- The effect of one record on one key's aggregate: the loop body of
`atualizar` seen through `stationAt`. -/
def ingest1 (s : Station) (v : PyF) : Station :=
  ⟨s.count + 1, pymin s.minv v, pymax s.maxv v, pyadd s.sumv v⟩

/-- Folding a value list into one key's aggregate. -/
def foldStation (s : Station) (vals : List PyF) : Station := vals.foldl ingest1 s

/-- The fresh aggregate: the `defaultdict` defaults. -/
def emptyStation : Station := ⟨0, .inf, .negInf, .finite 0⟩

section DictLemmas

variable {α : Type} (dflt v : α) (d : List (String × α)) (k k' : String)

theorem keys_cons (p : String × α) : keys (p :: d) = p.1 :: keys d := rfl

theorem dcontains_iff : dcontains d k = true ↔ k ∈ keys d := by
  induction d with
  | nil => simp [dcontains, keys]
  | cons p d ih =>
    by_cases h : p.1 = k
    · simp [dcontains, keys_cons, h]
    · simp only [dcontains, keys_cons, List.mem_cons, Bool.or_eq_true,
        decide_eq_true_eq, h, false_or, ih]
      exact (or_iff_right (fun hm => h hm.symm)).symm

theorem dget_of_not_contains (h : ¬ dcontains d k = true) : dget dflt d k = dflt := by
  induction d with
  | nil => rfl
  | cons p d ih =>
    simp only [dcontains, Bool.or_eq_true, decide_eq_true_eq, not_or] at h
    simp [dget, h.1, ih h.2]

theorem dget_dsetIn_self :
    dget dflt (dsetIn d k v) k = if dcontains d k then v else dflt := by
  induction d with
  | nil => simp [dsetIn, dget, dcontains]
  | cons p d ih =>
    by_cases h : p.1 = k
    · simp [dsetIn, dget, dcontains, h]
    · simp [dsetIn, dget, dcontains, h, ih]

theorem dget_append (e : List (String × α)) :
    dget dflt (d ++ e) k = if dcontains d k then dget dflt d k else dget dflt e k := by
  induction d with
  | nil => simp [dget, dcontains]
  | cons p d ih =>
    by_cases h : p.1 = k
    · simp [dget, dcontains, h]
    · simp [dget, dcontains, h, ih]

theorem dget_dset_self : dget dflt (dset d k v) k = v := by
  unfold dset
  by_cases h : dcontains d k
  · simp [h, dget_dsetIn_self]
  · simp [h, dget_append, dget]

theorem dget_dsetIn_ne (h : k' ≠ k) :
    dget dflt (dsetIn d k v) k' = dget dflt d k' := by
  induction d with
  | nil => simp [dsetIn]
  | cons p d ih =>
    by_cases hp : p.1 = k
    · simp [dsetIn, dget, hp, Ne.symm h, ih]
    · simp [dsetIn, dget, hp, ih]

theorem dget_dset_ne (h : k' ≠ k) :
    dget dflt (dset d k v) k' = dget dflt d k' := by
  unfold dset
  by_cases hc : dcontains d k
  · simp [hc, dget_dsetIn_ne _ _ _ _ _ h]
  · rw [if_neg hc, dget_append]
    by_cases hc2 : dcontains d k'
    · rw [if_pos hc2]
    · rw [if_neg hc2]
      simp [dget, Ne.symm h, dget_of_not_contains _ _ _ hc2]

theorem keys_dsetIn : keys (dsetIn d k v) = keys d := by
  induction d with
  | nil => simp [dsetIn]
  | cons p d ih =>
    by_cases hp : p.1 = k
    · simp [dsetIn, keys, hp, ih] at *
      simpa [keys] using ih
    · simpa [dsetIn, keys, hp] using ih

theorem keys_dset :
    keys (dset d k v) = if dcontains d k then keys d else keys d ++ [k] := by
  unfold dset
  by_cases hc : dcontains d k
  · simp [hc, keys_dsetIn]
  · simp [hc, keys]

theorem nodup_keys_dset (h : (keys d).Nodup) : (keys (dset d k v)).Nodup := by
  rw [keys_dset]
  by_cases hc : dcontains d k
  · simpa [hc] using h
  · have hk : k ∉ keys d := fun hm => hc ((dcontains_iff d k).mpr hm)
    simp [hc, List.nodup_append, h, hk]

theorem mem_dsetIn (p : String × α) (hp : p ∈ dsetIn d k v) :
    p = (k, v) ∨ p ∈ d := by
  induction d with
  | nil => simp [dsetIn] at hp
  | cons q d ih =>
    by_cases hq : q.1 = k
    · simp only [dsetIn, hq, if_pos rfl] at hp
      rcases List.mem_cons.mp hp with h | h
      · exact Or.inl h
      · rcases ih h with h2 | h2
        · exact Or.inl h2
        · exact Or.inr (List.mem_cons_of_mem _ h2)
    · simp only [dsetIn, hq, if_neg hq] at hp
      rcases List.mem_cons.mp hp with h | h
      · exact Or.inr (h ▸ List.mem_cons_self _ _)
      · rcases ih h with h2 | h2
        · exact Or.inl h2
        · exact Or.inr (List.mem_cons_of_mem _ h2)

theorem mem_dset (p : String × α) (hp : p ∈ dset d k v) :
    p = (k, v) ∨ p ∈ d := by
  unfold dset at hp
  by_cases hc : dcontains d k
  · rw [if_pos hc] at hp
    exact mem_dsetIn _ _ _ _ hp
  · rw [if_neg hc] at hp
    rcases List.mem_append.mp hp with h | h
    · exact Or.inr h
    · exact Or.inl (by simpa using h)

end DictLemmas

/-! ### One step of the loop, seen through `stationAt` -/

theorem stationAt_atualizar_self (st : ProcState) (k : String) (v : PyF) :
    stationAt (atualizar st k v) k = ingest1 (stationAt st k) v := by
  simp [stationAt, atualizar, ingest1, dget_dset_self]

theorem stationAt_atualizar_ne (st : ProcState) (k k' : String) (v : PyF)
    (h : k' ≠ k) : stationAt (atualizar st k v) k' = stationAt st k' := by
  simp [stationAt, atualizar, dget_dset_ne _ _ _ _ _ h]

/-! ### Characterising a run through per-key value lists -/

theorem valsForP_cons (k : String) (r : String × PyF) (recs : List (String × PyF)) :
    valsForP k (r :: recs) =
      if r.1 = k then r.2 :: valsForP k recs else valsForP k recs := by
  by_cases h : r.1 = k <;> simp [valsForP, h]

theorem stationAt_ingestRecs (recs : List (String × PyF)) (st : ProcState) (k : String) :
    stationAt (ingestRecs st recs) k = foldStation (stationAt st k) (valsForP k recs) := by
  induction recs generalizing st with
  | nil => rfl
  | cons r recs ih =>
    have step : ingestRecs st (r :: recs) = ingestRecs (atualizar st r.1 r.2) recs := rfl
    rw [step, ih, valsForP_cons]
    by_cases h : r.1 = k
    · rw [if_pos h, ← h, stationAt_atualizar_self]
      rfl
    · rw [if_neg h, stationAt_atualizar_ne _ _ _ _ (fun hk => h hk.symm)]

theorem foldStation_fields (vals : List PyF) (s : Station) :
    foldStation s vals =
      ⟨s.count + vals.length, vals.foldl pymin s.minv,
       vals.foldl pymax s.maxv, vals.foldl pyadd s.sumv⟩ := by
  induction vals generalizing s with
  | nil => simp [foldStation]
  | cons v vals ih =>
    have step : foldStation s (v :: vals) = foldStation (ingest1 s v) vals := rfl
    rw [step, ih]
    simp only [ingest1, List.foldl_cons, List.length_cons, Station.mk.injEq]
    refine ⟨?_, ?_, ?_, ?_⟩ <;> first | rfl | trivial | omega

/-- One rational value folded into a running `min` accumulator. -/
def minStep (s : PyF) (q : ℚ) : PyF := pymin s (.finite q)

/-- One rational value folded into a running `max` accumulator. -/
def maxStep (s : PyF) (q : ℚ) : PyF := pymax s (.finite q)

/-- One rational value folded into a running `sum` accumulator. -/
def addStep (s : PyF) (q : ℚ) : PyF := pyadd s (.finite q)

/-- The `minimas` entry produced by a list of finite values. -/
def pfoldMin (l : List ℚ) : PyF := l.foldl minStep .inf

/-- The `maximas` entry produced by a list of finite values. -/
def pfoldMax (l : List ℚ) : PyF := l.foldl maxStep .negInf

/-- The `somas` entry produced by a list of finite values. -/
def pfoldSum (l : List ℚ) : PyF := l.foldl addStep (.finite 0)

theorem valsForP_map_finite (k : String) (recs : List (String × ℚ)) :
    valsForP k (recs.map (fun r => (r.1, PyF.finite r.2))) =
      (valsForQ k recs).map PyF.finite := by
  induction recs with
  | nil => rfl
  | cons r recs ih =>
    by_cases h : r.1 = k <;> simp [valsForP, valsForQ, h] at ih ⊢ <;> exact ih

theorem stationAt_emptyState (k : String) : stationAt emptyState k = emptyStation := rfl

theorem stationAt_ingestQ (recs : List (String × ℚ)) (k : String) :
    stationAt (ingestQ recs) k =
      ⟨(valsForQ k recs).length, pfoldMin (valsForQ k recs),
       pfoldMax (valsForQ k recs), pfoldSum (valsForQ k recs)⟩ := by
  unfold ingestQ
  rw [stationAt_ingestRecs, valsForP_map_finite, stationAt_emptyState, foldStation_fields]
  simp only [emptyStation, Nat.zero_add, List.length_map, List.foldl_map, Station.mk.injEq]
  refine ⟨?_, ?_, ?_, ?_⟩ <;> first | rfl | trivial

/-! ### Algebra of the fold steps on finite values -/

theorem minStep_finite (a q : ℚ) : minStep (.finite a) q = .finite (min a q) := by
  rcases lt_or_ge q a with h | h
  · simp [minStep, pymin, pylt, h, min_eq_right h.le]
  · simp [minStep, pymin, pylt, not_lt.mpr h, min_eq_left h]

theorem minStep_inf (q : ℚ) : minStep .inf q = .finite q := by
  simp [minStep, pymin, pylt]

theorem maxStep_finite (a q : ℚ) : maxStep (.finite a) q = .finite (max a q) := by
  rcases lt_or_ge a q with h | h
  · simp [maxStep, pymax, pylt, h, max_eq_right h.le]
  · simp [maxStep, pymax, pylt, not_lt.mpr h, max_eq_left h]

theorem maxStep_negInf (q : ℚ) : maxStep .negInf q = .finite q := by
  simp [maxStep, pymax, pylt]

theorem addStep_finite (a q : ℚ) : addStep (.finite a) q = .finite (a + q) := rfl

instance : RightCommutative minStep := ⟨by
  intro s a b
  cases s with
  | finite c => simp [minStep_finite, min_right_comm]
  | inf => simp [minStep_inf, minStep_finite, min_comm]
  | negInf => simp [minStep, pymin, pylt]
  | nan => simp [minStep, pymin, pylt]⟩

instance : RightCommutative maxStep := ⟨by
  intro s a b
  cases s with
  | finite c => simp [maxStep_finite, sup_right_comm]
  | negInf => simp [maxStep_negInf, maxStep_finite, max_comm]
  | inf => simp [maxStep, pymax, pylt]
  | nan => simp [maxStep, pymax, pylt]⟩

instance : RightCommutative addStep := ⟨by
  intro s a b
  cases s with
  | finite c => simp [addStep_finite, add_right_comm]
  | inf => rfl
  | negInf => rfl
  | nan => rfl⟩

theorem foldl_minStep_finite (l : List ℚ) :
    ∀ a, l.foldl minStep (.finite a) = .finite (l.foldl min a) := by
  induction l with
  | nil => intro a; rfl
  | cons q l ih => intro a; simp [List.foldl_cons, minStep_finite, ih]

theorem pfoldMin_cons (q : ℚ) (l : List ℚ) :
    pfoldMin (q :: l) = .finite (l.foldl min q) := by
  simp [pfoldMin, List.foldl_cons, minStep_inf, foldl_minStep_finite]

theorem foldl_maxStep_finite (l : List ℚ) :
    ∀ a, l.foldl maxStep (.finite a) = .finite (l.foldl max a) := by
  induction l with
  | nil => intro a; rfl
  | cons q l ih => intro a; simp [List.foldl_cons, maxStep_finite, ih]

theorem pfoldMax_cons (q : ℚ) (l : List ℚ) :
    pfoldMax (q :: l) = .finite (l.foldl max q) := by
  simp [pfoldMax, List.foldl_cons, maxStep_negInf, foldl_maxStep_finite]

theorem foldl_addStep_finite (l : List ℚ) :
    ∀ a, l.foldl addStep (.finite a) = .finite (a + l.sum) := by
  induction l with
  | nil => intro a; simp
  | cons q l ih => intro a; simp [List.foldl_cons, addStep_finite, ih, add_assoc]

theorem pfoldSum_eq (l : List ℚ) : pfoldSum l = .finite l.sum := by
  simp [pfoldSum, foldl_addStep_finite]

theorem foldl_min_le_init (l : List ℚ) : ∀ a, l.foldl min a ≤ a := by
  induction l with
  | nil => intro a; exact le_refl a
  | cons q l ih => intro a; exact le_trans (ih _) (min_le_left a q)

theorem foldl_min_le_mem (l : List ℚ) : ∀ a, ∀ v ∈ l, l.foldl min a ≤ v := by
  induction l with
  | nil => intro a v h; simp at h
  | cons q l ih =>
    intro a v h
    rcases List.mem_cons.mp h with h | h
    · subst h
      exact le_trans (foldl_min_le_init l _) (min_le_right a v)
    · exact ih _ _ h

theorem foldl_min_mem (l : List ℚ) : ∀ a, l.foldl min a = a ∨ l.foldl min a ∈ l := by
  induction l with
  | nil => intro a; exact Or.inl rfl
  | cons q l ih =>
    intro a
    rcases ih (min a q) with h | h
    · rcases min_choice a q with h2 | h2
      · exact Or.inl (by rw [List.foldl_cons, h, h2])
      · exact Or.inr (by rw [List.foldl_cons, h, h2]; exact List.mem_cons_self _ _)
    · exact Or.inr (List.mem_cons_of_mem _ (by rw [List.foldl_cons]; exact h))

theorem foldl_max_ge_init (l : List ℚ) : ∀ a, a ≤ l.foldl max a := by
  induction l with
  | nil => intro a; exact le_refl a
  | cons q l ih => intro a; exact le_trans (le_max_left a q) (ih _)

theorem foldl_max_ge_mem (l : List ℚ) : ∀ a, ∀ v ∈ l, v ≤ l.foldl max a := by
  induction l with
  | nil => intro a v h; simp at h
  | cons q l ih =>
    intro a v h
    rcases List.mem_cons.mp h with h | h
    · subst h
      exact le_trans (le_max_right a v) (foldl_max_ge_init l _)
    · exact ih _ _ h

theorem foldl_max_mem (l : List ℚ) : ∀ a, l.foldl max a = a ∨ l.foldl max a ∈ l := by
  induction l with
  | nil => intro a; exact Or.inl rfl
  | cons q l ih =>
    intro a
    rcases ih (max a q) with h | h
    · rcases max_choice a q with h2 | h2
      · exact Or.inl (by rw [List.foldl_cons, h, h2])
      · exact Or.inr (by rw [List.foldl_cons, h, h2]; exact List.mem_cons_self _ _)
    · exact Or.inr (List.mem_cons_of_mem _ (by rw [List.foldl_cons]; exact h))

theorem pfoldMin_perm {l1 l2 : List ℚ} (h : l1.Perm l2) : pfoldMin l1 = pfoldMin l2 :=
  h.foldl_eq _

theorem pfoldMax_perm {l1 l2 : List ℚ} (h : l1.Perm l2) : pfoldMax l1 = pfoldMax l2 :=
  h.foldl_eq _

theorem pfoldSum_perm {l1 l2 : List ℚ} (h : l1.Perm l2) : pfoldSum l1 = pfoldSum l2 := by
  rw [pfoldSum_eq, pfoldSum_eq, h.sum_eq]

theorem pymin_finite (a b : ℚ) : pymin (.finite a) (.finite b) = .finite (min a b) :=
  minStep_finite a b

theorem pymax_finite (a b : ℚ) : pymax (.finite a) (.finite b) = .finite (max a b) :=
  maxStep_finite a b

theorem pyadd_finite (a b : ℚ) : pyadd (.finite a) (.finite b) = .finite (a + b) := rfl

theorem foldl_min_pull (t : List ℚ) : ∀ a b, t.foldl min (min a b) = min a (t.foldl min b) := by
  induction t with
  | nil => intro a b; rfl
  | cons c t ih =>
    intro a b
    rw [List.foldl_cons, min_assoc, ih, List.foldl_cons]

theorem foldl_max_pull (t : List ℚ) : ∀ a b, t.foldl max (max a b) = max a (t.foldl max b) := by
  induction t with
  | nil => intro a b; rfl
  | cons c t ih =>
    intro a b
    rw [List.foldl_cons, max_assoc, ih, List.foldl_cons]

theorem pfoldMin_append (l1 l2 : List ℚ) :
    pfoldMin (l1 ++ l2) = pymin (pfoldMin l1) (pfoldMin l2) := by
  cases l1 with
  | nil =>
    rw [List.nil_append]
    cases l2 with
    | nil => rfl
    | cons q t => rw [pfoldMin_cons]; simp [pfoldMin, pymin, pylt]
  | cons q t =>
    rw [List.cons_append, pfoldMin_cons, pfoldMin_cons]
    cases l2 with
    | nil => simp [pfoldMin, pymin, pylt]
    | cons q2 t2 =>
      rw [pfoldMin_cons, List.foldl_append, pymin_finite, List.foldl_cons, foldl_min_pull]

theorem pfoldMax_append (l1 l2 : List ℚ) :
    pfoldMax (l1 ++ l2) = pymax (pfoldMax l1) (pfoldMax l2) := by
  cases l1 with
  | nil =>
    rw [List.nil_append]
    cases l2 with
    | nil => rfl
    | cons q t => rw [pfoldMax_cons]; simp [pfoldMax, pymax, pylt]
  | cons q t =>
    rw [List.cons_append, pfoldMax_cons, pfoldMax_cons]
    cases l2 with
    | nil => simp [pfoldMax, pymax, pylt]
    | cons q2 t2 =>
      rw [pfoldMax_cons, List.foldl_append, pymax_finite, List.foldl_cons, foldl_max_pull]

theorem pfoldSum_append (l1 l2 : List ℚ) :
    pfoldSum (l1 ++ l2) = pyadd (pfoldSum l1) (pfoldSum l2) := by
  rw [pfoldSum_eq, pfoldSum_eq, pfoldSum_eq, pyadd_finite, List.sum_append]

theorem valsForQ_append (k : String) (r1 r2 : List (String × ℚ)) :
    valsForQ k (r1 ++ r2) = valsForQ k r1 ++ valsForQ k r2 := by
  simp [valsForQ, List.filter_append]

theorem valsForQ_perm (k : String) {r1 r2 : List (String × ℚ)} (h : r1.Perm r2) :
    (valsForQ k r1).Perm (valsForQ k r2) :=
  (h.filter _).map _

/-! ### Error propagation and the counter invariant -/

theorem runLines_append_bad (bad : String) (hbad : parseLine bad = none)
    (lines : List String) :
    ∀ st : ProcState, (∀ l ∈ lines, (parseLine l).isSome) →
      runLines st (lines ++ [bad]) = ((runLines st lines).1, true) := by
  induction lines with
  | nil => intro st _; simp [runLines, hbad]
  | cons l ls ih =>
    intro st h
    have hl : (parseLine l).isSome := h l (List.mem_cons_self _ _)
    obtain ⟨⟨k, v⟩, hkv⟩ := Option.isSome_iff_exists.mp hl
    simp only [List.cons_append, runLines, hkv]
    exact ih _ (fun x hx => h x (List.mem_cons_of_mem _ hx))

/-- Every count stored in `medicoes` is positive. -/
def countsPos (st : ProcState) : Prop := ∀ p ∈ st.medicoes, 0 < p.2

theorem countsPos_atualizar (st : ProcState) (k : String) (v : PyF)
    (h : countsPos st) : countsPos (atualizar st k v) := by
  intro p hp
  simp only [atualizar] at hp
  rcases mem_dset _ _ _ p hp with h2 | h2
  · rw [h2]
    exact Nat.succ_pos _
  · exact h p h2

theorem countsPos_runLines (lines : List String) :
    ∀ st : ProcState, countsPos st → countsPos (runLines st lines).1 := by
  induction lines with
  | nil => intro st h; exact h
  | cons l ls ih =>
    intro st h
    cases hp : parseLine l with
    | none => simpa [runLines, hp] using h
    | some kv =>
      obtain ⟨k, v⟩ := kv
      simp only [runLines, hp]
      exact ih _ (countsPos_atualizar _ _ _ h)

/-! ### Claim theorems -/

/-- C1: the input lines `A;10.0`, `A;20.0`, `B;-5.5` produce the aggregate
state `{A: count=2, min=10.0, max=20.0, sum=30.0; B: count=1, min=-5.5,
max=-5.5, sum=-5.5}` and the formatted output lines `A: 10.0/15.0/20.0` and
`B: -5.5 / -5.5 / -5.5` (slashes unspaced in the real output), in that
order. -/
theorem c1_scenario1 :
    (processar ["A;10.0", "A;20.0", "B;-5.5"]).2 = false ∧
    stationAt (processar ["A;10.0", "A;20.0", "B;-5.5"]).1 "A" =
      ⟨2, .finite 10, .finite 20, .finite 30⟩ ∧
    stationAt (processar ["A;10.0", "A;20.0", "B;-5.5"]).1 "B" =
      ⟨1, .finite (-11/2), .finite (-11/2), .finite (-11/2)⟩ ∧
    outputLines (processar ["A;10.0", "A;20.0", "B;-5.5"]).1 =
      ["A: 10.0/15.0/20.0", "B: -5.5/-5.5/-5.5"] := by
  with_unfolding_all decide

/-- C2: after ingesting any finite record sequence, a key with positive
count stores as `min`/`max` the true minimum and maximum of the multiset of
values ingested under it (both are ingested values bounding every ingested
value). -/
theorem c2_true_min_max (recs : List (String × ℚ)) (k : String)
    (h : 0 < (stationAt (ingestQ recs) k).count) :
    ∃ mn mx : ℚ,
      (stationAt (ingestQ recs) k).minv = .finite mn ∧
      (stationAt (ingestQ recs) k).maxv = .finite mx ∧
      mn ∈ valsForQ k recs ∧ mx ∈ valsForQ k recs ∧
      ∀ v ∈ valsForQ k recs, mn ≤ v ∧ v ≤ mx := by
  rw [stationAt_ingestQ] at h ⊢
  dsimp only at h ⊢
  obtain ⟨q, t, hv⟩ : ∃ q t, valsForQ k recs = q :: t := by
    cases hvv : valsForQ k recs with
    | nil => rw [hvv] at h; simp at h
    | cons q t => exact ⟨q, t, rfl⟩
  rw [hv, pfoldMin_cons, pfoldMax_cons]
  refine ⟨t.foldl min q, t.foldl max q, rfl, rfl, ?_, ?_, ?_⟩
  · rcases foldl_min_mem t q with h2 | h2
    · rw [h2]; exact List.mem_cons_self _ _
    · exact List.mem_cons_of_mem _ h2
  · rcases foldl_max_mem t q with h2 | h2
    · rw [h2]; exact List.mem_cons_self _ _
    · exact List.mem_cons_of_mem _ h2
  · intro v hv2
    rcases List.mem_cons.mp hv2 with h2 | h2
    · subst h2
      exact ⟨foldl_min_le_init t _, foldl_max_ge_init t _⟩
    · exact ⟨foldl_min_le_mem t q v h2, foldl_max_ge_mem t q v h2⟩

/-- Witness for C2 at the records `A;10`, `A;20`. -/
theorem c2_true_min_max_witness :
    0 < (stationAt (ingestQ [("A", 10), ("A", 20)]) "A").count ∧
    (∃ mn mx : ℚ,
      (stationAt (ingestQ [("A", 10), ("A", 20)]) "A").minv = .finite mn ∧
      (stationAt (ingestQ [("A", 10), ("A", 20)]) "A").maxv = .finite mx ∧
      mn ∈ valsForQ "A" [("A", 10), ("A", 20)] ∧
      mx ∈ valsForQ "A" [("A", 10), ("A", 20)] ∧
      ∀ v ∈ valsForQ "A" [("A", 10), ("A", 20)], mn ≤ v ∧ v ≤ mx) :=
  ⟨by with_unfolding_all decide,
   c2_true_min_max [("A", 10), ("A", 20)] "A" (by with_unfolding_all decide)⟩

/-- Helper: in the exact-rational abstraction of the sums (no binary64
rounding), the full merged state — sum included — equals the combined-run
state under any partition and order.  This is NOT true of the source's
rounded sums; see `fl64`, `pyaddD` and the 64-bit merge results below. -/
theorem mergeExactQ (r1 r2 r : List (String × ℚ)) (k : String)
    (h : (r1 ++ r2).Perm r) :
    mergeState (stationAt (ingestQ r1) k) (stationAt (ingestQ r2) k) =
      stationAt (ingestQ r) k := by
  have hv : (valsForQ k r1 ++ valsForQ k r2).Perm (valsForQ k r) := by
    rw [← valsForQ_append]
    exact valsForQ_perm k h
  rw [stationAt_ingestQ, stationAt_ingestQ, stationAt_ingestQ]
  unfold mergeState
  simp only [Station.mk.injEq]
  refine ⟨?_, ?_, ?_, ?_⟩
  · rw [← hv.length_eq, List.length_append]
  · rw [← pfoldMin_perm hv, pfoldMin_append]
  · rw [← pfoldMax_perm hv, pfoldMax_append]
  · rw [← pfoldSum_perm hv, pfoldSum_append]

/-- C7 (failing input): the line `A;nan` is accepted by the parse step —
CPython `float('nan')` succeeds — and the NaN value reaches the table
update, where it poisons `sum` (and leaves `min`/`max` at their sentinels),
contradicting the requirement that NaN be rejected as a parse failure. -/
theorem c7_nan_parsed :
    parseLine "A;nan" = some ("A", PyF.nan) ∧
    (processar ["A;nan"]).2 = false ∧
    stationAt (processar ["A;nan"]).1 "A" = ⟨1, .inf, .negInf, .nan⟩ := by
  with_unfolding_all decide

/-- C8: processing a malformed line after any sequence of well-formed lines
raises (error flag set) and leaves the table state exactly as it was before
the malformed line was attempted. -/
theorem c8_error_leaves_state (lines : List String) (bad : String)
    (hgood : ∀ l ∈ lines, (parseLine l).isSome)
    (hbad : parseLine bad = none) :
    runLines emptyState (lines ++ [bad]) =
      ((runLines emptyState lines).1, true) :=
  runLines_append_bad bad hbad lines emptyState hgood

/-- Witness for C8: the well-formed `A;1.0` followed by the malformed `X`. -/
theorem c8_error_leaves_state_witness :
    (∀ l ∈ ["A;1.0"], (parseLine l).isSome) ∧ parseLine "X" = none ∧
    runLines emptyState (["A;1.0"] ++ ["X"]) =
      ((runLines emptyState ["A;1.0"]).1, true) :=
  ⟨by with_unfolding_all decide, by with_unfolding_all decide,
   c8_error_leaves_state ["A;1.0"] "X" (by with_unfolding_all decide)
     (by with_unfolding_all decide)⟩

/-- C9: every key present in `medicoes` after a run has a positive count,
so the division `somas[station] / qtd_medicoes` in the snapshot never
divides by zero. -/
theorem c9_counts_positive (lines : List String) (p : String × ℕ)
    (hp : p ∈ (processar lines).1.medicoes) : 0 < p.2 :=
  countsPos_runLines lines emptyState (fun q hq => by simp [emptyState] at hq) p hp

/-- Witness for C9 at the single line `A;1.0`. -/
theorem c9_counts_positive_witness :
    ("A", 1) ∈ (processar ["A;1.0"]).1.medicoes ∧ 0 < (("A", 1) : String × ℕ).2 :=
  ⟨by with_unfolding_all decide,
   c9_counts_positive ["A;1.0"] ("A", 1) (by with_unfolding_all decide)⟩

/-- C10: ingesting a record for key `k` leaves the aggregate (count, min,
max, sum) of every other key `k'` already in the table unchanged. -/
theorem c10_frame (st : ProcState) (k : String) (v : PyF) (k' : String)
    (h1 : k' ≠ k) (_h2 : k' ∈ keys st.medicoes) :
    stationAt (atualizar st k v) k' = stationAt st k' :=
  stationAt_atualizar_ne st k k' v h1

/-- Witness for C10: updating `A` leaves the existing `B` aggregate
untouched. -/
theorem c10_frame_witness :
    ("B" : String) ≠ "A" ∧ "B" ∈ keys (processar ["B;1.0"]).1.medicoes ∧
    stationAt (atualizar (processar ["B;1.0"]).1 "A" (.finite 2)) "B" =
      stationAt (processar ["B;1.0"]).1 "B" :=
  ⟨by decide, by with_unfolding_all decide,
   c10_frame (processar ["B;1.0"]).1 "A" (.finite 2) "B" (by decide)
     (by with_unfolding_all decide)⟩

/-! ### Splitting lemmas for the parser claims -/

theorem splitSemi_ne_nil (l : List Char) : splitSemi l ≠ [] := by
  cases l with
  | nil => simp [splitSemi]
  | cons c cs =>
    simp only [splitSemi]
    cases splitSemi cs with
    | nil => simp
    | cons f rest => by_cases h : c = ';' <;> simp [h]

theorem splitSemi_no_semi (l : List Char) (h : ';' ∉ l) : splitSemi l = [l] := by
  induction l with
  | nil => rfl
  | cons c cs ih =>
    have hc : c ≠ ';' := fun hc => h (hc ▸ List.mem_cons_self _ _)
    have hcs : ';' ∉ cs := fun hm => h (List.mem_cons_of_mem _ hm)
    simp only [splitSemi, ih hcs]
    simp [hc]

theorem splitSemi_append (pre post : List Char) (h : ';' ∉ pre) :
    splitSemi (pre ++ ';' :: post) = pre :: splitSemi post := by
  induction pre with
  | nil =>
    simp only [List.nil_append, splitSemi]
    cases hp : splitSemi post with
    | nil => exact absurd hp (splitSemi_ne_nil post)
    | cons f rest => simp
  | cons c pre ih =>
    have hc : c ≠ ';' := fun hc => h (hc ▸ List.mem_cons_self _ _)
    have hpre : ';' ∉ pre := fun hm => h (List.mem_cons_of_mem _ hm)
    simp only [List.cons_append, splitSemi, List.append_eq]
    rw [ih hpre]
    simp [hc]

theorem splitSemi_length (l : List Char) :
    (splitSemi l).length = l.count ';' + 1 := by
  induction l with
  | nil => rfl
  | cons c cs ih =>
    simp only [splitSemi]
    cases hp : splitSemi cs with
    | nil => exact absurd hp (splitSemi_ne_nil cs)
    | cons f rest =>
      rw [hp] at ih
      dsimp only
      by_cases h : c = ';'
      · subst h
        rw [if_pos rfl, List.count_cons_self]
        simp only [List.length_cons] at ih ⊢
        omega
      · rw [if_neg h, List.count_cons_of_ne (fun hx => h hx.symm)]
        simp only [List.length_cons] at ih ⊢
        omega

/-- C3 counterexample: the stated failure condition is wrong about empty
keys — the line `;10.0` has an empty key substring yet parses successfully
(to the record `("", 10.0)`), so the claimed equivalence fails at it. -/
theorem c3_cex :
    ¬ (∀ line : String, parseLine line = none ↔
        (';' ∉ line.data ∨ String.mk ((splitSemi line.data).headD []) = "" ∨
          pyfloat (String.mk ((splitSemi line.data).getD 1 [])) = none)) := by
  intro h
  have h2 := (h ";10.0").mpr (Or.inr (Or.inl (by with_unfolding_all decide)))
  exact (by with_unfolding_all decide : parseLine ";10.0" ≠ none) h2

/-- C3 (amended): a line fails the parse step exactly when it has no `;`
(fewer than two fields, so `row[1]` raises) or its second field is not
accepted by `float`; an empty key is accepted. -/
theorem c3_parse_fails_iff (line : String) :
    parseLine line = none ↔
      (';' ∉ line.data ∨
        pyfloat (String.mk ((splitSemi line.data).getD 1 [])) = none) := by
  unfold parseLine
  cases hs : splitSemi line.data with
  | nil => exact absurd hs (splitSemi_ne_nil line.data)
  | cons f rest =>
    cases rest with
    | nil =>
      have hlen : (splitSemi line.data).length = 1 := by rw [hs]; rfl
      have hcount : line.data.count ';' = 0 := by
        have := splitSemi_length line.data
        omega
      have hnot : ';' ∉ line.data := List.count_eq_zero.mp hcount
      simp [hnot]
    | cons f2 rest2 =>
      have hmem : ';' ∈ line.data := by
        by_contra hnot
        rw [splitSemi_no_semi line.data hnot] at hs
        simp at hs
      simp [hs, hmem, Option.map_eq_none']

/-- C4 counterexample: the line `A;1.0;2.0` does not raise — `csv.reader`
splits at every `;` and `row[1]` is just the second field — so the record
`("A", 1.0)` is ingested, contrary to the claimed ParseError. -/
theorem c4_cex :
    parseLine "A;1.0;2.0" = some ("A", PyF.finite 1) ∧
    ¬ parseLine "A;1.0;2.0" = none := by
  with_unfolding_all decide

/-- C4 (amended): a line with two or more delimiters splits at every `;`:
the key is still the part before the first delimiter, but the value is only
the second field (between the first and second delimiters), and all later
fields are ignored rather than causing a ParseError. -/
theorem c4_second_field (pre mid post : List Char)
    (h1 : ';' ∉ pre) (h2 : ';' ∉ mid) :
    parseLine (String.mk (pre ++ ';' :: (mid ++ ';' :: post))) =
      (pyfloat (String.mk mid)).map (fun v => (String.mk pre, v)) := by
  have hs : splitSemi (String.mk (pre ++ ';' :: (mid ++ ';' :: post))).data
      = pre :: mid :: splitSemi post := by
    show splitSemi (pre ++ ';' :: (mid ++ ';' :: post)) = _
    rw [splitSemi_append _ _ h1, splitSemi_append _ _ h2]
  unfold parseLine
  rw [hs]

/-- Witness for C4 (amended) on the line `A;1.0;2.0`. -/
theorem c4_second_field_witness :
    (';' ∉ ("A".data : List Char)) ∧ (';' ∉ ("1.0".data : List Char)) ∧
    parseLine (String.mk ("A".data ++ ';' :: ("1.0".data ++ ';' :: "2.0".data))) =
      (pyfloat (String.mk "1.0".data)).map (fun v => (String.mk "A".data, v)) :=
  ⟨by decide, by decide,
   c4_second_field "A".data "1.0".data "2.0".data (by decide) (by decide)⟩

/-! ### UTF-8 byte order: code-point order implies byte-wise order -/

theorem lex_append_left (l : List ℕ) {xs ys : List ℕ}
    (h : List.Lex (· < ·) xs ys) : List.Lex (· < ·) (l ++ xs) (l ++ ys) := by
  induction l with
  | nil => exact h
  | cons c l ih => exact List.Lex.cons ih

theorem utf8enc_ne_nil (n : ℕ) : utf8enc n ≠ [] := by
  unfold utf8enc
  by_cases h1 : n < 128
  · simp [h1]
  · by_cases h2 : n < 2048
    · simp [h1, h2]
    · by_cases h3 : n < 65536 <;> simp [h1, h2, h3]

theorem utf8enc_lt (m n : ℕ) (hmn : m < n) (hn : n < 1114112) (xs ys : List ℕ) :
    List.Lex (· < ·) (utf8enc m ++ xs) (utf8enc n ++ ys) := by
  unfold utf8enc
  by_cases hm1 : m < 128
  · rw [if_pos hm1]
    by_cases hn1 : n < 128
    · rw [if_pos hn1]
      exact List.Lex.rel hmn
    · rw [if_neg hn1]
      by_cases hn2 : n < 2048
      · rw [if_pos hn2]
        exact List.Lex.rel (by omega)
      · rw [if_neg hn2]
        by_cases hn3 : n < 65536
        · rw [if_pos hn3]
          exact List.Lex.rel (by omega)
        · rw [if_neg hn3]
          exact List.Lex.rel (by omega)
  · rw [if_neg hm1]
    by_cases hm2 : m < 2048
    · rw [if_pos hm2]
      by_cases hn1 : n < 128
      · exact absurd hmn (by omega)
      · rw [if_neg hn1]
        by_cases hn2 : n < 2048
        · rw [if_pos hn2]
          rcases Nat.lt_or_ge (m / 64) (n / 64) with h | h
          · exact List.Lex.rel (by omega)
          · have heq : m / 64 = n / 64 := by omega
            rw [List.cons_append, List.cons_append, heq]
            exact List.Lex.cons (List.Lex.rel (by omega))
        · rw [if_neg hn2]
          by_cases hn3 : n < 65536
          · rw [if_pos hn3]
            exact List.Lex.rel (by omega)
          · rw [if_neg hn3]
            exact List.Lex.rel (by omega)
    · rw [if_neg hm2]
      by_cases hm3 : m < 65536
      · rw [if_pos hm3]
        by_cases hn1 : n < 128
        · exact absurd hmn (by omega)
        · rw [if_neg hn1]
          by_cases hn2 : n < 2048
          · exact absurd hmn (by omega)
          · rw [if_neg hn2]
            by_cases hn3 : n < 65536
            · rw [if_pos hn3]
              rcases Nat.lt_or_ge (m / 4096) (n / 4096) with h | h
              · exact List.Lex.rel (by omega)
              · have heq : m / 4096 = n / 4096 := by omega
                rw [List.cons_append, List.cons_append, heq]
                rcases Nat.lt_or_ge (m / 64 % 64) (n / 64 % 64) with h2 | h2
                · exact List.Lex.cons (List.Lex.rel (by omega))
                · have heq2 : m / 64 % 64 = n / 64 % 64 := by omega
                  rw [List.cons_append, List.cons_append, heq2]
                  exact List.Lex.cons (List.Lex.cons (List.Lex.rel (by omega)))
            · rw [if_neg hn3]
              exact List.Lex.rel (by omega)
      · rw [if_neg hm3]
        by_cases hn1 : n < 128
        · exact absurd hmn (by omega)
        · rw [if_neg hn1]
          by_cases hn2 : n < 2048
          · exact absurd hmn (by omega)
          · rw [if_neg hn2]
            by_cases hn3 : n < 65536
            · exact absurd hmn (by omega)
            · rw [if_neg hn3]
              rcases Nat.lt_or_ge (m / 262144) (n / 262144) with h | h
              · exact List.Lex.rel (by omega)
              · have heq : m / 262144 = n / 262144 := by omega
                rw [List.cons_append, List.cons_append, heq]
                rcases Nat.lt_or_ge (m / 4096 % 64) (n / 4096 % 64) with h2 | h2
                · exact List.Lex.cons (List.Lex.rel (by omega))
                · have heq2 : m / 4096 % 64 = n / 4096 % 64 := by omega
                  rw [List.cons_append, List.cons_append, heq2]
                  rcases Nat.lt_or_ge (m / 64 % 64) (n / 64 % 64) with h3 | h3
                  · exact List.Lex.cons (List.Lex.cons (List.Lex.rel (by omega)))
                  · have heq3 : m / 64 % 64 = n / 64 % 64 := by omega
                    rw [List.cons_append, List.cons_append, heq3]
                    exact List.Lex.cons (List.Lex.cons (List.Lex.cons (List.Lex.rel (by omega))))

/-- UTF-8 bytes of a character list. -/
def utf8L (l : List Char) : List ℕ := l.flatMap (fun c => utf8enc c.toNat)

theorem char_toNat_lt_limit (b : Char) : b.toNat < 1114112 := by
  have h := b.valid
  rcases h with h | h
  · exact Nat.lt_trans h (by norm_num)
  · exact h.2

theorem utf8chars_lt (as bs : List Char) (h : List.Lex (· < ·) as bs) :
    List.Lex (· < ·) (utf8L as) (utf8L bs) := by
  induction h with
  | @nil b l2 =>
    show List.Lex (· < ·) [] (utf8enc b.toNat ++ utf8L l2)
    cases henc : utf8enc b.toNat with
    | nil => exact absurd henc (utf8enc_ne_nil b.toNat)
    | cons x xsb => exact List.Lex.nil
  | @cons a l1 l2 h ih =>
    show List.Lex (· < ·) (utf8enc a.toNat ++ utf8L l1) (utf8enc a.toNat ++ utf8L l2)
    exact lex_append_left _ ih
  | @rel a l1 b l2 hab =>
    show List.Lex (· < ·) (utf8enc a.toNat ++ utf8L l1) (utf8enc b.toNat ++ utf8L l2)
    exact utf8enc_lt _ _ (Char.lt_def.mp hab) (char_toNat_lt_limit b) _ _

/-- Code-point order on strings (the order Python's string `<` and hence
`sorted` uses) implies strict byte-wise order of the UTF-8 encodings. -/
theorem byteLt_of_lt {s t : String} (h : s < t) : byteLt s t := by
  have h2 : List.Lex (· < ·) s.data t.data := String.lt_iff_toList_lt.mp h
  exact utf8chars_lt _ _ h2

/-! ### Key uniqueness and the sorted-output claim -/

theorem nodup_keys_atualizar (st : ProcState) (k : String) (v : PyF)
    (h : (keys st.medicoes).Nodup) : (keys (atualizar st k v).medicoes).Nodup := by
  simp only [atualizar]
  exact nodup_keys_dset _ _ _ h

theorem nodup_keys_runLines (lines : List String) :
    ∀ st : ProcState, (keys st.medicoes).Nodup →
      (keys (runLines st lines).1.medicoes).Nodup := by
  induction lines with
  | nil => intro st h; exact h
  | cons l ls ih =>
    intro st h
    cases hp : parseLine l with
    | none => simpa [runLines, hp] using h
    | some kv =>
      obtain ⟨k, v⟩ := kv
      simp only [runLines, hp]
      exact ih _ (nodup_keys_atualizar _ _ _ h)

theorem keys_snapshot (st : ProcState) :
    (snapshot st).map Prod.fst = keys st.medicoes := by
  simp [snapshot, keys, List.map_map, Function.comp]

/-- C5: for every finite input, the keys of the formatted output are
strictly increasing under byte-wise lexicographic order on their UTF-8
encodings, with no duplicate keys. -/
theorem c5_keys_strictly_increasing (lines : List String) :
    List.Pairwise byteLt ((formattedResults (processar lines).1).map Prod.fst) ∧
    ((formattedResults (processar lines).1).map Prod.fst).Nodup := by
  have hnd0 : (keys (processar lines).1.medicoes).Nodup :=
    nodup_keys_runLines lines emptyState (by simp [emptyState, keys])
  have hkeys : (formattedResults (processar lines).1).map Prod.fst =
      (sortedResults (processar lines).1).map Prod.fst := by
    simp [formattedResults, List.map_map, Function.comp]
  have hperm : (sortedResults (processar lines).1).Perm (snapshot (processar lines).1) :=
    List.perm_insertionSort _ _
  have hnd1 : ((snapshot (processar lines).1).map Prod.fst).Nodup := by
    rw [keys_snapshot]
    exact hnd0
  have hnd : ((sortedResults (processar lines).1).map Prod.fst).Nodup :=
    ((hperm.map Prod.fst).nodup_iff).mpr hnd1
  have hp1 : List.Pairwise keyLe (sortedResults (processar lines).1) :=
    List.sorted_insertionSort keyLe _
  have hksorted : List.Pairwise (· ≤ ·)
      ((sortedResults (processar lines).1).map Prod.fst) :=
    List.pairwise_map.mpr hp1
  have hklt : List.Pairwise (· < ·)
      ((sortedResults (processar lines).1).map Prod.fst) :=
    List.Sorted.lt_of_le hksorted hnd
  constructor
  · rw [hkeys]
    exact hklt.imp byteLt_of_lt
  · rw [hkeys]
    exact hnd

/-! ### Binary64 rounding and the merge claim

The source accumulates `somas` in 64-bit floats, so each `+=` rounds its
exact sum to the nearest binary64 value.  `fl64` is that rounding
(round-to-nearest, ties-to-even) for values in the normal range of
binary64 — overflow and subnormals, which nothing here reaches, are not
modelled.  `pyaddD`/`atualizarD`/`ingestQD` are the rounded counterparts of
`pyadd`/`atualizar`/`ingestQ`. -/

/-- Fuel-driven floor of base-2 logarithm, written by structural recursion
so that kernel evaluation works; the fuel `n` itself always suffices. -/
def log2fuel : ℕ → ℕ → ℕ
  | 0, _ => 0
  | fuel + 1, n => if 2 ≤ n then log2fuel fuel (n / 2) + 1 else 0

/-- Floor of the base-2 logarithm of a natural number. -/
def natLog2 (n : ℕ) : ℕ := log2fuel n n

/-- Computes the rational `2 ^ e` through natural-number powers (which the
kernel evaluates directly, unlike iterated monoid powers on `ℚ`). -/
def pow2 (e : ℤ) : ℚ :=
  match e with
  | .ofNat n => ((2 ^ n : ℕ) : ℚ)
  | .negSucc n => 1 / ((2 ^ (n + 1) : ℕ) : ℚ)

/-- The integer `e` with `2 ^ e ≤ q < 2 ^ (e + 1)`, for positive `q`
(junk on nonpositive input, which `fl64` never passes). -/
def ratLog2 (q : ℚ) : ℤ :=
  let g : ℤ := (natLog2 q.num.natAbs : ℤ) - (natLog2 q.den : ℤ)
  if pow2 g ≤ q then g else g - 1

/-- Round a rational to the nearest IEEE binary64 value, ties to even: the
significand `|q| / 2 ^ e` is scaled into `[2 ^ 52, 2 ^ 53)` and rounded to
an integer with `halfEven`.  Models the normal range of doubles. -/
def fl64 (q : ℚ) : ℚ :=
  if q = 0 then 0
  else
    let aq := |q|
    let e : ℤ := ratLog2 aq - 52
    let m : ℤ := halfEven (aq / pow2 e)
    (if q < 0 then -(m : ℚ) else (m : ℚ)) * pow2 e

/-- Addition as the source's `somas[...] += temperatura` actually computes
it: exact addition followed by binary64 rounding (special values as in
`pyadd`). -/
def pyaddD (a b : PyF) : PyF :=
  match a, b with
  | .finite x, .finite y => .finite (fl64 (x + y))
  | x, y => pyadd x y

/-- The loop body with the rounded sum accumulation.  The `minimas`,
`maximas` and `medicoes` updates are exact operations in binary64 (min and
max return one of their arguments; the count is an integer) and are
unchanged from `atualizar`. -/
def atualizarD (st : ProcState) (nome : String) (t : PyF) : ProcState where
  minimas := dset st.minimas nome (pymin (dget .inf st.minimas nome) t)
  maximas := dset st.maximas nome (pymax (dget .negInf st.maximas nome) t)
  somas := dset st.somas nome (pyaddD (dget (.finite 0) st.somas nome) t)
  medicoes := dset st.medicoes nome (dget 0 st.medicoes nome + 1)

/-- Ingest already-parsed records with rounded sums. -/
def ingestRecsD (st : ProcState) (recs : List (String × PyF)) : ProcState :=
  recs.foldl (fun s r => atualizarD s r.1 r.2) st

/-- Ingest finite (rational) records from the fresh tables, rounding each
sum to binary64. -/
def ingestQD (recs : List (String × ℚ)) : ProcState :=
  ingestRecsD emptyState (recs.map (fun r => (r.1, PyF.finite r.2)))

/-- Merging two aggregates for one key under binary64 arithmetic: pairwise
min, pairwise max, binary64-summed sum, summed count. -/
def mergeStateD (a b : Station) : Station where
  count := a.count + b.count
  minv := pymin a.minv b.minv
  maxv := pymax a.maxv b.maxv
  sumv := pyaddD a.sumv b.sumv

/-- One record's effect on one key's aggregate under rounded sums. -/
def ingest1D (s : Station) (v : PyF) : Station :=
  ⟨s.count + 1, pymin s.minv v, pymax s.maxv v, pyaddD s.sumv v⟩

theorem stationAt_atualizarD_self (st : ProcState) (k : String) (v : PyF) :
    stationAt (atualizarD st k v) k = ingest1D (stationAt st k) v := by
  simp [stationAt, atualizarD, ingest1D, dget_dset_self]

theorem stationAt_atualizarD_ne (st : ProcState) (k k' : String) (v : PyF)
    (h : k' ≠ k) : stationAt (atualizarD st k v) k' = stationAt st k' := by
  simp [stationAt, atualizarD, dget_dset_ne _ _ _ _ _ h]

theorem stationAt_ingestRecsD (recs : List (String × PyF)) (st : ProcState) (k : String) :
    stationAt (ingestRecsD st recs) k =
      (valsForP k recs).foldl ingest1D (stationAt st k) := by
  induction recs generalizing st with
  | nil => rfl
  | cons r recs ih =>
    have step : ingestRecsD st (r :: recs) = ingestRecsD (atualizarD st r.1 r.2) recs := rfl
    rw [step, ih, valsForP_cons]
    by_cases h : r.1 = k
    · rw [if_pos h, ← h, stationAt_atualizarD_self]
      rfl
    · rw [if_neg h, stationAt_atualizarD_ne _ _ _ _ (fun hk => h hk.symm)]

theorem foldStationD_fields (vals : List PyF) (s : Station) :
    vals.foldl ingest1D s =
      ⟨s.count + vals.length, vals.foldl pymin s.minv,
       vals.foldl pymax s.maxv, vals.foldl pyaddD s.sumv⟩ := by
  induction vals generalizing s with
  | nil => simp
  | cons v vals ih =>
    have step : (v :: vals).foldl ingest1D s = vals.foldl ingest1D (ingest1D s v) := rfl
    rw [step, ih]
    simp only [ingest1D, List.foldl_cons, List.length_cons, Station.mk.injEq]
    refine ⟨?_, ?_, ?_, ?_⟩ <;> first | rfl | trivial | omega

theorem stationAt_ingestQD (recs : List (String × ℚ)) (k : String) :
    (stationAt (ingestQD recs) k).count = (valsForQ k recs).length ∧
    (stationAt (ingestQD recs) k).minv = pfoldMin (valsForQ k recs) ∧
    (stationAt (ingestQD recs) k).maxv = pfoldMax (valsForQ k recs) := by
  unfold ingestQD
  rw [stationAt_ingestRecsD, valsForP_map_finite, stationAt_emptyState, foldStationD_fields]
  simp only [emptyStation, Nat.zero_add, List.length_map, List.foldl_map]
  refine ⟨?_, ?_, ?_⟩ <;> first | rfl | trivial

/-- Extracts the numerator of a finite sum: an integer observation of the
state used to decide the counterexample without comparing huge rationals
directly. -/
def sumNum : PyF → ℤ
  | .finite q => q.num
  | _ => 0

/-- C6 counterexample: under the source's binary64 sums the claimed
equality fails.  Partition the records `A;1e16`, `A;1`, `A;1` into
`[A;1e16]` and `[A;1, A;1]` (the combined sequence is their concatenation
itself): the merged sum is `fl64(1e16 + 2) = 1e16 + 2`, but sequential
ingestion gives `fl64(fl64(1e16 + 1) + 1) = 1e16`, because `1e16 + 1`
rounds back to `1e16`.  So the merged state differs from the combined-run
state. -/
theorem c6_cex :
    ([("A", ((10 ^ 16 : ℕ) : ℚ))] ++ [("A", 1), ("A", 1)]).Perm
        [("A", ((10 ^ 16 : ℕ) : ℚ)), ("A", 1), ("A", 1)] ∧
    mergeStateD (stationAt (ingestQD [("A", ((10 ^ 16 : ℕ) : ℚ))]) "A")
        (stationAt (ingestQD [("A", 1), ("A", 1)]) "A") ≠
      stationAt (ingestQD [("A", ((10 ^ 16 : ℕ) : ℚ)), ("A", 1), ("A", 1)]) "A" := by
  refine ⟨List.Perm.refl _, fun h => ?_⟩
  have h1 : sumNum (mergeStateD (stationAt (ingestQD [("A", ((10 ^ 16 : ℕ) : ℚ))]) "A")
      (stationAt (ingestQD [("A", 1), ("A", 1)]) "A")).sumv = 10 ^ 16 + 2 := by
    with_unfolding_all decide
  have h2 : sumNum (stationAt
      (ingestQD [("A", ((10 ^ 16 : ℕ) : ℚ)), ("A", 1), ("A", 1)]) "A").sumv = 10 ^ 16 := by
    with_unfolding_all decide
  rw [h] at h1
  exact absurd (h1.symm.trans h2) (by decide)

/-- C6 (amended): for any partition of a record sequence into two
subsequences (stated via permutation: `r1 ++ r2` is a rearrangement of
`r`), merging the two independently built aggregates of any key — pairwise
min, pairwise max, summed sum, summed count — reproduces the count, min
and max of the combined-sequence aggregate exactly, even under the
source's binary64 arithmetic; the summed sum agrees with the combined
run only in exact (unrounded) arithmetic, and under binary64 rounding can
differ from it, as `c6_cex` shows. -/
theorem c6_merge_components (r1 r2 r : List (String × ℚ)) (k : String)
    (h : (r1 ++ r2).Perm r) :
    (mergeStateD (stationAt (ingestQD r1) k) (stationAt (ingestQD r2) k)).count =
      (stationAt (ingestQD r) k).count ∧
    (mergeStateD (stationAt (ingestQD r1) k) (stationAt (ingestQD r2) k)).minv =
      (stationAt (ingestQD r) k).minv ∧
    (mergeStateD (stationAt (ingestQD r1) k) (stationAt (ingestQD r2) k)).maxv =
      (stationAt (ingestQD r) k).maxv ∧
    mergeState (stationAt (ingestQ r1) k) (stationAt (ingestQ r2) k) =
      stationAt (ingestQ r) k := by
  have hv : (valsForQ k r1 ++ valsForQ k r2).Perm (valsForQ k r) := by
    rw [← valsForQ_append]
    exact valsForQ_perm k h
  obtain ⟨hc1, hm1, hx1⟩ := stationAt_ingestQD r1 k
  obtain ⟨hc2, hm2, hx2⟩ := stationAt_ingestQD r2 k
  obtain ⟨hcr, hmr, hxr⟩ := stationAt_ingestQD r k
  refine ⟨?_, ?_, ?_, mergeExactQ r1 r2 r k h⟩
  · show (stationAt (ingestQD r1) k).count + (stationAt (ingestQD r2) k).count =
      (stationAt (ingestQD r) k).count
    rw [hc1, hc2, hcr, ← hv.length_eq, List.length_append]
  · show pymin (stationAt (ingestQD r1) k).minv (stationAt (ingestQD r2) k).minv =
      (stationAt (ingestQD r) k).minv
    rw [hm1, hm2, hmr, ← pfoldMin_perm hv, pfoldMin_append]
  · show pymax (stationAt (ingestQD r1) k).maxv (stationAt (ingestQD r2) k).maxv =
      (stationAt (ingestQD r) k).maxv
    rw [hx1, hx2, hxr, ← pfoldMax_perm hv, pfoldMax_append]

/-- Witness for C6 (amended): `[A;1] ++ [A;2]` against the reordered
`[A;2, A;1]`. -/
theorem c6_merge_components_witness :
    ([("A", (1 : ℚ))] ++ [("A", 2)]).Perm [("A", 2), ("A", 1)] ∧
    ((mergeStateD (stationAt (ingestQD [("A", (1 : ℚ))]) "A")
        (stationAt (ingestQD [("A", 2)]) "A")).count =
      (stationAt (ingestQD [("A", 2), ("A", 1)]) "A").count ∧
    (mergeStateD (stationAt (ingestQD [("A", (1 : ℚ))]) "A")
        (stationAt (ingestQD [("A", 2)]) "A")).minv =
      (stationAt (ingestQD [("A", 2), ("A", 1)]) "A").minv ∧
    (mergeStateD (stationAt (ingestQD [("A", (1 : ℚ))]) "A")
        (stationAt (ingestQD [("A", 2)]) "A")).maxv =
      (stationAt (ingestQD [("A", 2), ("A", 1)]) "A").maxv ∧
    mergeState (stationAt (ingestQ [("A", (1 : ℚ))]) "A")
        (stationAt (ingestQ [("A", 2)]) "A") =
      stationAt (ingestQ [("A", 2), ("A", 1)]) "A") :=
  ⟨List.Perm.swap _ _ _,
   c6_merge_components [("A", 1)] [("A", 2)] [("A", 2), ("A", 1)] "A"
     (List.Perm.swap _ _ _)⟩
